import Mathlib

/-!
Verification of the page-residency scanning engine of misc-utils/fincore.c and the
early-filter subsystem of lsfd-cmd/early-filter.c (util-linux), via a shallow
embedding.  Kernel calls (mmap, mincore, move_pages, posix_fadvise) are modelled by
an environment recording, per window offset, whether each call fails and what data
it reports; libc qsort and bsearch are modelled by their C-standard contracts.
-/

namespace Fincore

/-- From fincore.c: `#define N_PAGES_IN_WINDOW ((size_t)(32 * 1024))`. -/
def N_PAGES_IN_WINDOW : Nat := 32 * 1024

/-- PROT_READ from sys/mman.h (Linux value 1); the code also uses the literal 0
    (no access) as the other protection. -/
def PROT_READ : Nat := 1

/-- The fields of `struct fincore_control` the scanning engine reads.  `pagesize`
    comes from getpagesize(), which is always positive; the positivity proof is
    carried in the structure. -/
structure FincoreControl where
  pagesize : Nat
  pagesize_pos : 0 < pagesize
  drop : Bool

/-- `window_size` local of fincore_fd: `N_PAGES_IN_WINDOW * ctl->pagesize`. -/
def window_size (ctl : FincoreControl) : Nat := N_PAGES_IN_WINDOW * ctl.pagesize

/-- Kernel behaviour visible to one file scan.  `vec pg` is the mincore result
    byte for the absolute page index `pg` of the file (only its low bit is
    meaningful to the code).  The failure predicates are indexed by the byte
    offset of the window whose call fails.  `pageNode a` is the move_pages status
    reported for the page mapped at file byte offset `a`: a node id when
    nonnegative, an error when negative. -/
structure KernelEnv where
  vec : Nat → Nat
  mincoreFails : Nat → Bool
  mmapFails : Nat → Bool
  movePagesFails : Nat → Bool
  pageNode : Nat → Int

/-- The error exits of the window scanner. -/
inductive ScanError where
  | mapFailure
  | residencyQueryFailure
  | migrationFailure
deriving DecidableEq, Repr

/-- One tag per warn()/warnx() call site reachable from fincore_name. -/
inductive WarnTag where
  | openW
  | fstatW
  | fadviseW
  | mmapW
  | mincoreW
  | movePagesW
deriving DecidableEq, Repr

/-- `int n = (len / ctl->pagesize) + ((len % ctl->pagesize)? 1: 0);` in do_mincore. -/
def npages (ctl : FincoreControl) (len : Nat) : Nat :=
  len / ctl.pagesize + (if len % ctl.pagesize ≠ 0 then 1 else 0)

/-- The counting loop of do_mincore (`while (n > 0) { if (vec[--n] & 0x1) ... }`):
    the file byte addresses of the pages of the window at byte offset `off` whose
    mincore byte has the low bit set, in the order the loop stores them into
    `incore_pages` (the loop runs from the last page of the window down to page 0,
    and the address stored for window page n is `window + pagesize * n`). -/
def residentPages (ctl : FincoreControl) (env : KernelEnv) (off : Nat) : Nat → List Nat
  | 0 => []
  | n + 1 =>
    (if env.vec (off / ctl.pagesize + n) % 2 = 1 then [off + ctl.pagesize * n] else [])
      ++ residentPages ctl env off n

/-- Result of do_mincore.  `rc` is none on success.  `delta` is how much
    `*count_incore` was incremented (note the count happens before move_pages, so
    it stays incremented when move_pages fails).  `touched` lists the addresses
    dereferenced by the one-byte volatile read (only when a node breakdown is
    collected); they are exactly the addresses later handed to move_pages.
    `tallyAdd` lists, in order, the node ids by which `nodes_counter` is
    incremented. -/
structure MincoreRes where
  rc : Option ScanError
  delta : Nat
  touched : List Nat
  tallyAdd : List Nat
  warns : List WarnTag
deriving Repr

/-- Shallow embedding of `do_mincore` (fincore.c).  `nodes` tells whether
    `nodes_counter` is non-NULL.  A negative per-address move_pages status is
    skipped (`continue`) without error; a failing move_pages call aborts with
    `migrationFailure` after the count was already updated. -/
def do_mincore (ctl : FincoreControl) (env : KernelEnv) (nodes : Bool)
    (off len : Nat) : MincoreRes :=
  if env.mincoreFails off then
    ⟨some .residencyQueryFailure, 0, [], [], [.mincoreW]⟩
  else
    let pages := residentPages ctl env off (npages ctl len)
    if nodes then
      if env.movePagesFails off then
        ⟨some .migrationFailure, pages.length, pages, [], [.movePagesW]⟩
      else
        ⟨none, pages.length, pages,
          pages.filterMap (fun a =>
            if 0 ≤ env.pageNode a then some (env.pageNode a).toNat else none),
          []⟩
    else
      ⟨none, pages.length, [], [], []⟩

/-- `int prot = nodes_counter? PROT_READ: 0;` in fincore_fd. -/
def fincoreProt (nodes : Bool) : Nat := if nodes then PROT_READ else 0

/-- The window length computed at the top of each fincore_fd iteration:
    `len = file_size - file_offset; if (len >= window_size) len = window_size;`. -/
def wlen (ctl : FincoreControl) (size off : Nat) : Nat :=
  if size - off ≥ window_size ctl then window_size ctl else size - off

/-- Observable state threaded through a file scan: the running `*count_incore`,
    the node-id increments applied to `nodes_counter` (as a list, so the tally of
    a node is the count of its occurrences), the addresses gathered for
    move_pages across all windows, the currently established (not yet unmapped)
    mappings as (offset, length) pairs, every mmap attempt as
    (offset, length, prot), and the warnings issued. -/
structure FdState where
  count : Nat
  tally : List Nat
  gathered : List Nat
  mapped : List (Nat × Nat)
  attempts : List (Nat × Nat × Nat)
  warns : List WarnTag
deriving Repr, DecidableEq

def FdState.init : FdState := ⟨0, [], [], [], [], []⟩

structure FdRes where
  rc : Option ScanError
  st : FdState
deriving Repr, DecidableEq

/-- Shallow embedding of the loop of `fincore_fd` (fincore.c).  Note the loop
    body: on a do_mincore failure it breaks out WITHOUT calling munmap, so the
    failing window's mapping stays in `mapped`; munmap (modelled by erasing the
    window from `mapped`) runs only on the success path. -/
def fincore_fd_go (ctl : FincoreControl) (env : KernelEnv) (nodes : Bool)
    (size : Nat) (off : Nat) (st : FdState) : FdRes :=
  if _hlt : off < size then
    let len := wlen ctl size off
    let st1 := { st with attempts := st.attempts ++ [(off, len, fincoreProt nodes)] }
    if env.mmapFails off then
      ⟨some .mapFailure, { st1 with warns := st1.warns ++ [.mmapW] }⟩
    else
      let st2 := { st1 with mapped := st1.mapped ++ [(off, len)] }
      let r := do_mincore ctl env nodes off len
      let st3 := { st2 with
        count := st2.count + r.delta,
        tally := st2.tally ++ r.tallyAdd,
        gathered := st2.gathered ++ r.touched,
        warns := st2.warns ++ r.warns }
      match r.rc with
      | some e => ⟨some e, st3⟩
      | none => fincore_fd_go ctl env nodes size (off + len)
          { st3 with mapped := st3.mapped.erase (off, len) }
  else ⟨none, st⟩
termination_by size - off
decreasing_by
  have hp := ctl.pagesize_pos
  simp only [wlen, window_size, N_PAGES_IN_WINDOW]
  split <;> omega

/-- The state after one successfully mapped window at `off` (mmap succeeded and
    do_mincore ran): the window recorded in attempts and mapped, and the
    do_mincore outputs appended; munmap has not run yet. -/
def stepState (ctl : FincoreControl) (env : KernelEnv) (nodes : Bool)
    (size off : Nat) (st : FdState) : FdState :=
  { count := st.count + (do_mincore ctl env nodes off (wlen ctl size off)).delta,
    tally := st.tally ++ (do_mincore ctl env nodes off (wlen ctl size off)).tallyAdd,
    gathered := st.gathered ++ (do_mincore ctl env nodes off (wlen ctl size off)).touched,
    mapped := st.mapped ++ [(off, wlen ctl size off)],
    attempts := st.attempts ++ [(off, wlen ctl size off, fincoreProt nodes)],
    warns := st.warns ++ (do_mincore ctl env nodes off (wlen ctl size off)).warns }

/-- Shallow embedding of `fincore_fd`: the loop starting at offset 0 with a fresh
    count (the caller zeroes `count_incore` and `nodes_counter` per file). -/
def fincore_fd (ctl : FincoreControl) (env : KernelEnv) (nodes : Bool)
    (size : Nat) : FdRes :=
  fincore_fd_go ctl env nodes size 0 .init

/-- Per-file environment: whether open/fstat fail, whether the file is a
    directory, its size, the return value of posix_fadvise (per the POSIX
    contract: 0 on success, a positive error number on failure), and the kernel
    behaviour for the scan. -/
structure FileEnv where
  openFails : Bool
  statFails : Bool
  isDir : Bool
  size : Nat
  fadviseRet : Nat
  kenv : KernelEnv

/-- The int returned by fincore_fd for each error: mmap failure returns the
    hardcoded -EINVAL = -22; do_mincore failures return -errno, abstracted
    here as -1 (only the sign is ever inspected by callers). -/
def scanErrCode : ScanError → Int
  | .mapFailure => -22
  | .residencyQueryFailure => -1
  | .migrationFailure => -1

/-- Result of fincore_name: its int return (`<0` error, `0` success, `1` ignore),
    the scan state, and all warnings in order. -/
structure NameRes where
  rc : Int
  st : FdState
  warns : List WarnTag
deriving Repr

/-- Shallow embedding of `fincore_name` (fincore.c): open, fstat, the directory
    test, the optional posix_fadvise cache drop (whose return value rc is tested
    with `if (rc < 0)` and then overwritten by the fincore_fd result), and the
    scan itself, which runs only for nonzero st_size. -/
def fincore_name (ctl : FincoreControl) (nodes : Bool) (fenv : FileEnv) : NameRes :=
  if fenv.openFails then ⟨-1, .init, [.openW]⟩
  else if fenv.statFails then ⟨-1, .init, [.fstatW]⟩
  else if fenv.isDir then ⟨1, .init, []⟩
  else if fenv.size ≠ 0 then
    let dropWarns : List WarnTag :=
      if ctl.drop then
        if (fenv.fadviseRet : Int) < 0 then [.fadviseW] else []
      else []
    let r := fincore_fd ctl fenv.kenv nodes fenv.size
    ⟨(match r.rc with | none => 0 | some e => scanErrCode e),
      r.st, dropWarns ++ r.st.warns⟩
  else ⟨0, .init, []⟩

def EXIT_SUCCESS : Nat := 0
def EXIT_FAILURE : Nat := 1

/-- One output record handed to add_output_data for a file: st_size, the final
    count_incore, and the nodes_counter increments. -/
structure Record where
  size : Nat
  count : Nat
  tally : List Nat
deriving Repr, DecidableEq

/-- The per-file loop of main() (fincore.c): switch on fincore_name — case 0
    emits an output record, case 1 ignores the file, anything else sets the exit
    status to EXIT_FAILURE and continues with the next file. -/
def mainLoop (ctl : FincoreControl) (collect : Bool) (files : List FileEnv) :
    List Record × Nat :=
  files.foldl
    (fun acc fenv =>
      let r := fincore_name ctl collect fenv
      if r.rc = 0 then (acc.1 ++ [⟨fenv.size, r.st.count, r.st.tally⟩], acc.2)
      else if r.rc = 1 then acc
      else (acc.1, EXIT_FAILURE))
    ([], EXIT_SUCCESS)

/-- The record (if any) main() emits for one file: present exactly when
    fincore_name returned 0. -/
def fileRecord (ctl : FincoreControl) (collect : Bool) (fenv : FileEnv) : Option Record :=
  let r := fincore_name ctl collect fenv
  if r.rc = 0 then some ⟨fenv.size, r.st.count, r.st.tally⟩ else none

/-- Whether a file takes the default branch of main()'s switch (neither emitted
    nor ignored), which sets the exit status to EXIT_FAILURE. -/
def fileFailed (ctl : FincoreControl) (collect : Bool) (fenv : FileEnv) : Bool :=
  decide (¬((fincore_name ctl collect fenv).rc = 0 ∨
    (fincore_name ctl collect fenv).rc = 1))

/-- A 4096-byte page size (x86-64), no cache drop. -/
def ctl4096 : FincoreControl := ⟨4096, by decide, false⟩

/-- A 4096-byte page size with the cache-drop option active. -/
def ctlDrop : FincoreControl := ⟨4096, by decide, true⟩

/-- Kernel behaviour for a 3-page file with pages 0 and 2 resident and page 1
    evicted; every kernel call succeeds and every page sits on node 0. -/
def env3 : KernelEnv :=
  ⟨fun pg => if pg = 1 then 0 else 1,
   fun _ => false, fun _ => false, fun _ => false, fun _ => 0⟩

/-- Kernel behaviour where every page is resident and every call succeeds. -/
def envAllResident : KernelEnv :=
  ⟨fun _ => 1, fun _ => false, fun _ => false, fun _ => false, fun _ => 0⟩

/-- Kernel behaviour where mincore fails on every window. -/
def envMincoreFail : KernelEnv :=
  ⟨fun _ => 1, fun _ => true, fun _ => false, fun _ => false, fun _ => 0⟩

/-- The 3-page file, successfully opened and stat-ed. -/
def fenv3 : FileEnv := ⟨false, false, false, 3 * 4096, 0, env3⟩

/-- A directory, successfully opened and stat-ed. -/
def fenvDir : FileEnv := ⟨false, false, true, 0, 0, env3⟩

/-- An empty regular file. -/
def fenvEmpty : FileEnv := ⟨false, false, false, 0, 0, env3⟩

/-- A one-page fully resident file on which posix_fadvise fails, reporting the
    positive error number 22 per the POSIX contract. -/
def fenvDropFail : FileEnv := ⟨false, false, false, 4096, 22, envAllResident⟩

/-- A file that cannot be opened. -/
def fenvOpenFail : FileEnv := ⟨true, false, false, 0, 0, env3⟩

/-- A one-page file whose residency query fails. -/
def fenvMincoreFail : FileEnv := ⟨false, false, false, 4096, 0, envMincoreFail⟩

/-- The sequence of (offset, length) windows the fincore_fd loop generates from a
    given offset, with the same length computation as the loop; the guard
    `0 < ws` only rules out the degenerate window size the C program cannot have
    (pagesize is positive). -/
def windowsFrom (ws size : Nat) (off : Nat) : List (Nat × Nat) :=
  if _h : off < size ∧ 0 < ws then
    let len := if size - off ≥ ws then ws else size - off
    (off, len) :: windowsFrom ws size (off + len)
  else []
termination_by size - off
decreasing_by split <;> omega

/-- Windows starting at `o`, each nonempty and starting exactly where the
    previous one ended (hence strictly increasing, non-overlapping, contiguous). -/
def ChainFrom : Nat → List (Nat × Nat) → Prop
  | _, [] => True
  | o, w :: rest => w.1 = o ∧ 0 < w.2 ∧ ChainFrom (w.1 + w.2) rest

/-- Ceiling division, `ceil (a / p)`. -/
def ceilDiv (a p : Nat) : Nat := (a + p - 1) / p

end Fincore

namespace EarlyFilter

/-- `enum early_filter_type` together with the union payload of
    `struct early_filter` (lsfd-cmd/early-filter.c).  A C string is modelled as
    the list of its characters before the NUL terminator; `file_path_len`
    (cached strlen) is the list length. -/
inductive early_filter where
  | pid (p : Int)
  | file_path (fp : List Char)
deriving DecidableEq

/-- `struct early_filters`: the filter list in insertion order, the two
    counters, and the `pids` array (NULL, modelled as none, until
    early_filters_optimize runs with at least one pid filter). -/
structure early_filters where
  filters : List early_filter
  n_pid_filters : Nat
  n_file_path_filters : Nat
  pids : Option (List Int)
deriving DecidableEq

def new_early_filters : early_filters := ⟨[], 0, 0, none⟩

/-- `early_filters_add_pid`: list_add_tail plus counter increment. -/
def early_filters_add_pid (efs : early_filters) (p : Int) : early_filters :=
  { efs with filters := efs.filters ++ [.pid p],
             n_pid_filters := efs.n_pid_filters + 1 }

/-- `early_filters_add_file_path`: list_add_tail plus counter increment. -/
def early_filters_add_file_path (efs : early_filters) (fp : List Char) : early_filters :=
  { efs with filters := efs.filters ++ [.file_path fp],
             n_file_path_filters := efs.n_file_path_filters + 1 }

/-- The copy step of early_filters_optimize: the pids of the ef_pid entries, in
    list order. -/
def filterPid : early_filter → Option Int
  | .pid p => some p
  | .file_path _ => none

/-- `sort_pids` wraps qsort with the ascending comparator `pidcmp`.  qsort is
    modelled by its C-standard contract — a sorted permutation of the input —
    which for integers under the total order ≤ determines the output uniquely;
    insertionSort realizes that contract. -/
def sort_pids (l : List Int) : List Int := l.insertionSort (· ≤ ·)

/-- `early_filters_optimize`: when there is at least one pid filter, copy the
    pids of the ef_pid entries into a fresh array and sort it. -/
def early_filters_optimize (efs : early_filters) : early_filters :=
  if 0 < efs.n_pid_filters then
    { efs with pids := some (sort_pids (efs.filters.filterMap filterPid)) }
  else efs

def early_filters_has_pid_filter (efs : early_filters) : Bool :=
  decide (0 < efs.n_pid_filters)

/-- bsearch over the sorted pid array, modelled by the C-standard bsearch
    algorithm (the libc binary search with the `pidcmp` comparator): compare the
    key with the middle element and continue in the half that can contain it. -/
def bsearchGo (a : List Int) (key : Int) (lo hi : Nat) : Bool :=
  if _h : lo < hi then
    let mid := (lo + hi) / 2
    let v := a.getD mid 0
    if key < v then bsearchGo a key lo mid
    else if v < key then bsearchGo a key (mid + 1) hi
    else true
  else false
termination_by hi - lo
decreasing_by all_goals omega

def bsearch (key : Int) (a : List Int) : Bool := bsearchGo a key 0 a.length

/-- `early_filters_apply_pid`: no pid filter means everything passes; otherwise
    bsearch the sorted array.  Calling it with pid filters present but before
    optimize ran passes NULL to bsearch in C; the model reads an empty array. -/
def early_filters_apply_pid (efs : early_filters) (p : Int) : Bool :=
  if ¬ early_filters_has_pid_filter efs then true
  else bsearch p (efs.pids.getD [])

/-- strncmp on NUL-terminated strings modelled as char lists ([] is the
    terminator); returns 0 exactly when the first n characters agree. -/
def strncmp : List Char → List Char → Nat → Int
  | _, _, 0 => 0
  | [], [], _ + 1 => 0
  | [], c :: _, _ + 1 => 0 - (c.toNat : Int)
  | c :: _, [], _ + 1 => (c.toNat : Int)
  | a :: as, b :: bs, n + 1 =>
    if a = b then strncmp as bs n else (a.toNat : Int) - (b.toNat : Int)

/-- strcmp on NUL-terminated strings modelled as char lists. -/
def strcmp : List Char → List Char → Int
  | [], [] => 0
  | [], c :: _ => 0 - (c.toNat : Int)
  | c :: _, [] => (c.toNat : Int)
  | a :: as, b :: bs =>
    if a = b then strcmp as bs else (a.toNat : Int) - (b.toNat : Int)

/-- Reading character i of a C string: positions past the content read the NUL
    terminator (the code only ever indexes at most one past the last content
    character). -/
def strIndex (l : List Char) (i : Nat) : Char := l.getD i (Char.ofNat 0)

/-- The literal " (deleted)" compared against by file_path_equal. -/
def deletedSuffix : List Char := " (deleted)".toList

/-- A C string holds no NUL among its content characters. -/
def NoNul (l : List Char) : Prop := ∀ c ∈ l, c.toNat ≠ 0

/-- Shallow embedding of `file_path_equal` (lsfd-cmd/early-filter.c): an ef_pid
    entry never matches; an ef_file_path entry matches when its string is a
    prefix of the path and the path either ends there or continues with exactly
    " (deleted)". -/
def file_path_equal (ef : early_filter) (path : List Char) : Bool :=
  match ef with
  | .pid _ => false
  | .file_path fp =>
    if strncmp fp path fp.length = 0 then
      if strIndex path fp.length = Char.ofNat 0 then true
      else if strcmp (path.drop fp.length) deletedSuffix = 0 then true
      else false
    else false

/-- `early_filters_apply`: walk the filter list, return true at the first filter
    the predicate accepts. -/
def early_filters_apply (efs : early_filters) (pred : early_filter → Bool) : Bool :=
  efs.filters.any pred

def early_filters_has_file_path (efs : early_filters) : Bool :=
  decide (0 < efs.n_file_path_filters)

/-- Shallow embedding of `early_filters_apply_file_path`. -/
def early_filters_apply_file_path (efs : early_filters) (path : List Char) : Bool :=
  if ¬ early_filters_has_file_path efs then true
  else early_filters_apply efs (fun ef => file_path_equal ef path)

/-- The calls a client makes to populate an early_filters value before
    optimizing it. -/
inductive AddOp where
  | addPid (p : Int)
  | addPath (fp : List Char)

def AddOp.toFilter : AddOp → early_filter
  | .addPid p => .pid p
  | .addPath fp => .file_path fp

/-- The early_filters value built by new_early_filters followed by the given
    add calls in order. -/
def buildFilters (ops : List AddOp) : early_filters :=
  ops.foldl
    (fun efs op => match op with
      | .addPid p => early_filters_add_pid efs p
      | .addPath fp => early_filters_add_file_path efs fp)
    new_early_filters

/-- The pids passed to early_filters_add_pid, in call order. -/
def pidsAdded (ops : List AddOp) : List Int :=
  ops.filterMap (fun op => match op with | .addPid p => some p | .addPath _ => none)

/-- The strings passed to early_filters_add_file_path, in call order. -/
def pathsAdded (ops : List AddOp) : List (List Char) :=
  ops.filterMap (fun op => match op with | .addPid _ => none | .addPath fp => some fp)

end EarlyFilter

namespace Fincore

theorem window_size_pos (ctl : FincoreControl) : 0 < window_size ctl := by
  have hp := ctl.pagesize_pos
  simp only [window_size, N_PAGES_IN_WINDOW]
  omega

theorem wlen_pos (ctl : FincoreControl) {size off : Nat} (h : off < size) :
    0 < wlen ctl size off := by
  have := window_size_pos ctl
  unfold wlen
  split <;> omega

theorem wlen_le (ctl : FincoreControl) {size off : Nat} (h : off < size) :
    wlen ctl size off ≤ size - off := by
  have := window_size_pos ctl
  unfold wlen
  split <;> omega

theorem fincore_fd_go_stop (ctl : FincoreControl) (env : KernelEnv) (nodes : Bool)
    (size off : Nat) (st : FdState) (h : ¬ off < size) :
    fincore_fd_go ctl env nodes size off st = ⟨none, st⟩ := by
  rw [fincore_fd_go]
  simp [h]

theorem fincore_fd_go_step (ctl : FincoreControl) (env : KernelEnv) (nodes : Bool)
    (size off : Nat) (st : FdState) (h : off < size) :
    fincore_fd_go ctl env nodes size off st =
      (if env.mmapFails off then
        ⟨some .mapFailure,
         { st with attempts := st.attempts ++ [(off, wlen ctl size off, fincoreProt nodes)],
                   warns := st.warns ++ [.mmapW] }⟩
       else
        match (do_mincore ctl env nodes off (wlen ctl size off)).rc with
        | some e => ⟨some e, stepState ctl env nodes size off st⟩
        | none => fincore_fd_go ctl env nodes size (off + wlen ctl size off)
            { stepState ctl env nodes size off st with
                mapped := (stepState ctl env nodes size off st).mapped.erase
                  (off, wlen ctl size off) }) := by
  conv_lhs => rw [fincore_fd_go]
  simp only [dif_pos h]
  rfl

theorem windowsFrom_stop (ws size off : Nat) (h : ¬ (off < size ∧ 0 < ws)) :
    windowsFrom ws size off = [] := by
  rw [windowsFrom]
  simp [h]

theorem windowsFrom_step (ws size off : Nat) (h : off < size ∧ 0 < ws) :
    windowsFrom ws size off =
      (let len := if size - off ≥ ws then ws else size - off
       (off, len) :: windowsFrom ws size (off + len)) := by
  conv_lhs => rw [windowsFrom]
  simp only [dif_pos h]

/-- The windows list is a contiguous chain from its start offset, its lengths
    sum to the remaining size, and each window has length min(ws, size - off). -/
theorem windowsFrom_spec (ws size : Nat) (hws : 0 < ws) :
    ∀ n off, size - off ≤ n →
      ChainFrom off (windowsFrom ws size off) ∧
      ((windowsFrom ws size off).map Prod.snd).sum = size - off ∧
      (∀ w ∈ windowsFrom ws size off, w.2 = min ws (size - w.1)) := by
  intro n
  induction n with
  | zero =>
    intro off h
    rw [windowsFrom_stop ws size off (by omega)]
    simp [ChainFrom]
    omega
  | succ n ih =>
    intro off h
    by_cases hlt : off < size
    · rw [windowsFrom_step ws size off ⟨hlt, hws⟩]
      simp only []
      set len := if size - off ≥ ws then ws else size - off with hlen
      have hlen1 : 0 < len := by rw [hlen]; split <;> omega
      have hlen2 : len ≤ size - off := by rw [hlen]; split <;> omega
      obtain ⟨ihc, ihs, ihm⟩ := ih (off + len) (by omega)
      refine ⟨⟨rfl, hlen1, ihc⟩, ?_, ?_⟩
      · simp only [List.map_cons, List.sum_cons, ihs]
        omega
      · intro w hw
        rcases List.mem_cons.mp hw with hw | hw
        · subst hw
          simp only []
          rw [hlen]
          rcases Nat.lt_or_ge (size - off) ws with h1 | h1
          · rw [if_neg (by omega)]
            omega
          · rw [if_pos (by omega)]
            omega
        · exact ihm w hw
    · rw [windowsFrom_stop ws size off (by simp [hlt])]
      simp [ChainFrom]
      omega

theorem windowsFrom_nil_iff (ws size : Nat) (hws : 0 < ws) :
    windowsFrom ws size 0 = [] ↔ size = 0 := by
  constructor
  · intro h
    by_contra hs
    rw [windowsFrom_step ws size 0 ⟨by omega, hws⟩] at h
    simp at h
  · intro h
    subst h
    exact windowsFrom_stop ws 0 0 (by omega)

theorem ceil_aux (p q r : Nat) (hp : 0 < p) (hr : r < p) :
    q + (if r ≠ 0 then 1 else 0) = (p * q + r + p - 1) / p := by
  by_cases h : r = 0
  · subst h
    rw [if_neg (by simp)]
    have h2 : p * q + 0 + p - 1 = p * q + (p - 1) := by omega
    rw [h2, Nat.mul_add_div hp, Nat.div_eq_of_lt (by omega)]
  · rw [if_pos h]
    have h2 : p * q + r + p - 1 = p * q + (r + p - 1) := by omega
    rw [h2, Nat.mul_add_div hp]
    have h3 : (r + p - 1) / p = 1 := Nat.div_eq_of_lt_le (by omega) (by omega)
    omega

theorem npages_eq_ceilDiv (ctl : FincoreControl) (len : Nat) :
    npages ctl len = ceilDiv len ctl.pagesize := by
  have hp := ctl.pagesize_pos
  have hmod := Nat.div_add_mod len ctl.pagesize
  have hr : len % ctl.pagesize < ctl.pagesize := Nat.mod_lt _ hp
  have h := ceil_aux ctl.pagesize (len / ctl.pagesize) (len % ctl.pagesize) hp hr
  unfold npages ceilDiv
  rw [hmod] at h
  exact h

theorem ceilDiv_zero_left (p : Nat) (hp : 0 < p) : ceilDiv 0 p = 0 := by
  unfold ceilDiv
  exact Nat.div_eq_of_lt (show 0 + p - 1 < p by omega)

theorem ceilDiv_mul_self (p k : Nat) (hp : 0 < p) : ceilDiv (p * k) p = k := by
  unfold ceilDiv
  have h2 : p * k + p - 1 = p * k + (p - 1) := by omega
  rw [h2, Nat.mul_add_div hp]
  have h3 : (p - 1) / p = 0 := Nat.div_eq_of_lt (by omega)
  omega

theorem ceilDiv_mul_add (p k r : Nat) (hp : 0 < p) :
    ceilDiv (p * k + r) p = k + ceilDiv r p := by
  rcases Nat.eq_zero_or_pos r with hr | hr
  · subst hr
    rw [Nat.add_zero, ceilDiv_mul_self p k hp, ceilDiv_zero_left p hp]
    omega
  · unfold ceilDiv
    have h2 : p * k + r + p - 1 = p * k + (r + p - 1) := by omega
    rw [h2, Nat.mul_add_div hp]

/-- Splitting one window length off the remaining size splits the page ceiling. -/
theorem ceilDiv_split (p ws r len : Nat) (hp : 0 < p) (hdvd : p ∣ ws)
    (hlen : len = if r ≥ ws then ws else r) :
    ceilDiv len p + ceilDiv (r - len) p = ceilDiv r p := by
  obtain ⟨k, hk⟩ := hdvd
  rcases Nat.lt_or_ge r ws with h1 | h1
  · rw [if_neg (by omega)] at hlen
    subst hlen
    rw [Nat.sub_self, ceilDiv_zero_left p hp]
    omega
  · rw [if_pos (by omega)] at hlen
    subst hlen hk
    obtain ⟨r2, hr2⟩ : ∃ r2, r = p * k + r2 := ⟨r - p * k, by omega⟩
    subst hr2
    rw [Nat.add_sub_cancel_left, ceilDiv_mul_self p k hp, ceilDiv_mul_add p k r2 hp]

theorem residentPages_length_le (ctl : FincoreControl) (env : KernelEnv) (off : Nat) :
    ∀ n, (residentPages ctl env off n).length ≤ n := by
  intro n
  induction n with
  | zero => simp [residentPages]
  | succ n ih =>
    rw [residentPages, List.length_append]
    have h : (if env.vec (off / ctl.pagesize + n) % 2 = 1
        then [off + ctl.pagesize * n] else []).length ≤ 1 := by
      split <;> simp
    omega

theorem residentPages_length_eq (ctl : FincoreControl) (env : KernelEnv) (off : Nat) :
    ∀ n, (residentPages ctl env off n).length =
      ((List.range n).filter
        (fun j => decide (env.vec (off / ctl.pagesize + j) % 2 = 1))).length := by
  intro n
  induction n with
  | zero => simp [residentPages]
  | succ n ih =>
    rw [residentPages, List.range_succ, List.filter_append, List.length_append,
      List.length_append, ih]
    by_cases h : env.vec (off / ctl.pagesize + n) % 2 = 1 <;> simp [h] <;> omega

theorem do_mincore_rc_ne_map (ctl : FincoreControl) (env : KernelEnv) (nodes : Bool)
    (off len : Nat) (e : ScanError)
    (h : (do_mincore ctl env nodes off len).rc = some e) : e ≠ .mapFailure := by
  unfold do_mincore at h
  split at h
  · simp at h
    simp [← h]
  · split at h
    · split at h
      · simp at h
        simp [← h]
      · simp at h
    · simp at h

theorem do_mincore_delta_le (ctl : FincoreControl) (env : KernelEnv) (nodes : Bool)
    (off len : Nat) : (do_mincore ctl env nodes off len).delta ≤ npages ctl len := by
  unfold do_mincore
  split
  · simp
  · split
    · split <;> simp [residentPages_length_le]
    · simp [residentPages_length_le]

theorem do_mincore_warns (ctl : FincoreControl) (env : KernelEnv) (nodes : Bool)
    (off len : Nat) : WarnTag.fadviseW ∉ (do_mincore ctl env nodes off len).warns := by
  unfold do_mincore
  split
  · simp
  · split
    · split <;> simp
    · simp

theorem do_mincore_success (ctl : FincoreControl) (env : KernelEnv) (nodes : Bool)
    (off len : Nat) (hmc : env.mincoreFails off = false)
    (hmv : env.movePagesFails off = false) :
    (do_mincore ctl env nodes off len).rc = none := by
  unfold do_mincore
  rw [if_neg (by simp [hmc])]
  cases nodes <;> simp [hmv]

theorem do_mincore_eq_mincoreFail (ctl : FincoreControl) (env : KernelEnv) (nodes : Bool)
    (off len : Nat) (hmc : env.mincoreFails off = true) :
    do_mincore ctl env nodes off len =
      ⟨some .residencyQueryFailure, 0, [], [], [.mincoreW]⟩ := by
  simp [do_mincore, hmc]

theorem do_mincore_eq_moveFail (ctl : FincoreControl) (env : KernelEnv)
    (off len : Nat) (hmc : env.mincoreFails off = false)
    (hmv : env.movePagesFails off = true) :
    do_mincore ctl env true off len =
      ⟨some .migrationFailure, (residentPages ctl env off (npages ctl len)).length,
       residentPages ctl env off (npages ctl len), [], [.movePagesW]⟩ := by
  simp [do_mincore, hmc, hmv]

theorem do_mincore_eq_ok_nodes (ctl : FincoreControl) (env : KernelEnv)
    (off len : Nat) (hmc : env.mincoreFails off = false)
    (hmv : env.movePagesFails off = false) :
    do_mincore ctl env true off len =
      ⟨none, (residentPages ctl env off (npages ctl len)).length,
       residentPages ctl env off (npages ctl len),
       (residentPages ctl env off (npages ctl len)).filterMap (fun a =>
         if 0 ≤ env.pageNode a then some (env.pageNode a).toNat else none),
       []⟩ := by
  simp [do_mincore, hmc, hmv]

theorem do_mincore_eq_ok_other (ctl : FincoreControl) (env : KernelEnv)
    (off len : Nat) (hmc : env.mincoreFails off = false) :
    do_mincore ctl env false off len =
      ⟨none, (residentPages ctl env off (npages ctl len)).length, [], [], []⟩ := by
  simp [do_mincore, hmc]

theorem fincore_fd_go_step_mmap (ctl : FincoreControl) (env : KernelEnv) (nodes : Bool)
    (size off : Nat) (st : FdState) (h : off < size) (hmm : env.mmapFails off = true) :
    fincore_fd_go ctl env nodes size off st =
      ⟨some .mapFailure,
       { st with attempts := st.attempts ++ [(off, wlen ctl size off, fincoreProt nodes)],
                 warns := st.warns ++ [.mmapW] }⟩ := by
  rw [fincore_fd_go_step ctl env nodes size off st h, if_pos hmm]

theorem fincore_fd_go_step_err (ctl : FincoreControl) (env : KernelEnv) (nodes : Bool)
    (size off : Nat) (st : FdState) (e : ScanError) (h : off < size)
    (hmm : env.mmapFails off = false)
    (hrcm : (do_mincore ctl env nodes off (wlen ctl size off)).rc = some e) :
    fincore_fd_go ctl env nodes size off st =
      ⟨some e, stepState ctl env nodes size off st⟩ := by
  rw [fincore_fd_go_step ctl env nodes size off st h, if_neg (by simp [hmm]), hrcm]

theorem fincore_fd_go_step_ok (ctl : FincoreControl) (env : KernelEnv) (nodes : Bool)
    (size off : Nat) (st : FdState) (h : off < size)
    (hmm : env.mmapFails off = false)
    (hrcm : (do_mincore ctl env nodes off (wlen ctl size off)).rc = none) :
    fincore_fd_go ctl env nodes size off st =
      fincore_fd_go ctl env nodes size (off + wlen ctl size off)
        { stepState ctl env nodes size off st with
            mapped := (stepState ctl env nodes size off st).mapped.erase
              (off, wlen ctl size off) } := by
  rw [fincore_fd_go_step ctl env nodes size off st h, if_neg (by simp [hmm]), hrcm]

/-- Every address list splits into the pages migrated into the tally and the
    pages whose per-address status is negative. -/
theorem filterMap_node_length (env : KernelEnv) (l : List Nat) :
    (l.filterMap (fun a =>
        if 0 ≤ env.pageNode a then some (env.pageNode a).toNat else none)).length
      + (l.filter (fun a => decide (env.pageNode a < 0))).length = l.length := by
  induction l with
  | nil => simp
  | cons a l ih =>
    by_cases h : 0 ≤ env.pageNode a
    · simp only [List.filterMap_cons, List.filter_cons, if_pos h]
      rw [if_neg (by simp [not_lt.mpr h])]
      simp only [List.length_cons]
      omega
    · simp only [List.filterMap_cons, List.filter_cons, if_neg h]
      rw [if_pos (by simp [not_le.mp h])]
      simp only [List.length_cons]
      omega

/-- On a successful do_mincore with node collection, the tally additions plus
    the negative-status pages account exactly for the counted pages. -/
theorem do_mincore_tally (ctl : FincoreControl) (env : KernelEnv) (off len : Nat)
    (hrc : (do_mincore ctl env true off len).rc = none) :
    (do_mincore ctl env true off len).tallyAdd.length
      + ((do_mincore ctl env true off len).touched.filter
          (fun a => decide (env.pageNode a < 0))).length
      = (do_mincore ctl env true off len).delta := by
  by_cases hmc : env.mincoreFails off
  · rw [do_mincore_eq_mincoreFail ctl env true off len hmc] at hrc
    simp at hrc
  · rw [Bool.not_eq_true] at hmc
    by_cases hmv : env.movePagesFails off
    · rw [do_mincore_eq_moveFail ctl env off len hmc hmv] at hrc
      simp at hrc
    · rw [Bool.not_eq_true] at hmv
      rw [do_mincore_eq_ok_nodes ctl env off len hmc hmv]
      exact filterMap_node_length env _

/-- C4 workhorse: on a successful scan the count grows by at most the page
    ceiling of the remaining bytes. -/
theorem fd_go_count_le (ctl : FincoreControl) (env : KernelEnv) (nodes : Bool) (size : Nat) :
    ∀ n off st, size - off ≤ n →
      (fincore_fd_go ctl env nodes size off st).rc = none →
      (fincore_fd_go ctl env nodes size off st).st.count ≤
        st.count + ceilDiv (size - off) ctl.pagesize := by
  intro n
  induction n with
  | zero =>
    intro off st h _
    rw [fincore_fd_go_stop ctl env nodes size off st (by omega)]
    simp
  | succ n ih =>
    intro off st h hrc
    by_cases hlt : off < size
    · by_cases hmm : env.mmapFails off
      · rw [fincore_fd_go_step_mmap ctl env nodes size off st hlt hmm] at hrc
        simp at hrc
      · rw [Bool.not_eq_true] at hmm
        cases hrcm : (do_mincore ctl env nodes off (wlen ctl size off)).rc with
        | some e =>
          rw [fincore_fd_go_step_err ctl env nodes size off st e hlt hmm hrcm] at hrc
          simp at hrc
        | none =>
          rw [fincore_fd_go_step_ok ctl env nodes size off st hlt hmm hrcm] at hrc ⊢
          have hl1 : 0 < wlen ctl size off := wlen_pos ctl hlt
          have hl2 : wlen ctl size off ≤ size - off := wlen_le ctl hlt
          have hih := ih (off + wlen ctl size off) _ (by omega) hrc
          have hcount : ({ stepState ctl env nodes size off st with
              mapped := (stepState ctl env nodes size off st).mapped.erase
                (off, wlen ctl size off) } : FdState).count
              = st.count + (do_mincore ctl env nodes off (wlen ctl size off)).delta := rfl
          rw [hcount] at hih
          have hd := do_mincore_delta_le ctl env nodes off (wlen ctl size off)
          rw [npages_eq_ceilDiv] at hd
          have hsplit := ceilDiv_split ctl.pagesize (window_size ctl) (size - off)
            (wlen ctl size off) ctl.pagesize_pos
            ⟨N_PAGES_IN_WINDOW, by unfold window_size; ring⟩ rfl
          have he : size - (off + wlen ctl size off) = (size - off) - wlen ctl size off := by
            omega
          rw [he] at hih
          omega
    · rw [fincore_fd_go_stop ctl env nodes size off st (by omega)]
      simp

/-- C3 workhorse: the invariant "tally length + negative-status gathered pages
    = count" is preserved by a successful scan with node collection. -/
theorem fd_go_tally (ctl : FincoreControl) (env : KernelEnv) (size : Nat) :
    ∀ n off st, size - off ≤ n →
      (fincore_fd_go ctl env true size off st).rc = none →
      st.tally.length + (st.gathered.filter
        (fun a => decide (env.pageNode a < 0))).length = st.count →
      (fincore_fd_go ctl env true size off st).st.tally.length
        + ((fincore_fd_go ctl env true size off st).st.gathered.filter
            (fun a => decide (env.pageNode a < 0))).length
        = (fincore_fd_go ctl env true size off st).st.count := by
  intro n
  induction n with
  | zero =>
    intro off st h _ hinv
    rw [fincore_fd_go_stop ctl env true size off st (by omega)]
    exact hinv
  | succ n ih =>
    intro off st h hrc hinv
    by_cases hlt : off < size
    · by_cases hmm : env.mmapFails off
      · rw [fincore_fd_go_step_mmap ctl env true size off st hlt hmm] at hrc
        simp at hrc
      · rw [Bool.not_eq_true] at hmm
        cases hrcm : (do_mincore ctl env true off (wlen ctl size off)).rc with
        | some e =>
          rw [fincore_fd_go_step_err ctl env true size off st e hlt hmm hrcm] at hrc
          simp at hrc
        | none =>
          rw [fincore_fd_go_step_ok ctl env true size off st hlt hmm hrcm] at hrc ⊢
          have hl1 : 0 < wlen ctl size off := wlen_pos ctl hlt
          refine ih (off + wlen ctl size off) _ (by omega) hrc ?_
          have hwin := do_mincore_tally ctl env off (wlen ctl size off) hrcm
          show (st.tally ++ (do_mincore ctl env true off (wlen ctl size off)).tallyAdd).length
            + ((st.gathered ++ (do_mincore ctl env true off (wlen ctl size off)).touched).filter
                (fun a => decide (env.pageNode a < 0))).length
            = st.count + (do_mincore ctl env true off (wlen ctl size off)).delta
          rw [List.length_append, List.filter_append, List.length_append]
          omega
    · rw [fincore_fd_go_stop ctl env true size off st (by omega)]
      exact hinv

/-- C5 workhorse: the mappings left established at return, relative to those
    already established on entry. -/
theorem fd_go_mapped (ctl : FincoreControl) (env : KernelEnv) (nodes : Bool) (size : Nat) :
    ∀ n off st, size - off ≤ n → (∀ m ∈ st.mapped, m.1 < off) →
      ((fincore_fd_go ctl env nodes size off st).rc = none →
        (fincore_fd_go ctl env nodes size off st).st.mapped = st.mapped) ∧
      ((fincore_fd_go ctl env nodes size off st).rc = some .mapFailure →
        (fincore_fd_go ctl env nodes size off st).st.mapped = st.mapped) ∧
      (∀ e, (fincore_fd_go ctl env nodes size off st).rc = some e → e ≠ .mapFailure →
        ∃ w, (fincore_fd_go ctl env nodes size off st).st.mapped = st.mapped ++ [w]) := by
  intro n
  induction n with
  | zero =>
    intro off st h _
    rw [fincore_fd_go_stop ctl env nodes size off st (by omega)]
    exact ⟨fun _ => rfl, fun hx => by simp at hx, fun e hx => by simp at hx⟩
  | succ n ih =>
    intro off st h hm
    by_cases hlt : off < size
    · by_cases hmm : env.mmapFails off
      · rw [fincore_fd_go_step_mmap ctl env nodes size off st hlt hmm]
        refine ⟨fun hx => by simp at hx, fun _ => rfl, fun e hx he => absurd ?_ he⟩
        have : some ScanError.mapFailure = some e := hx
        exact (Option.some_inj.mp this).symm
      · rw [Bool.not_eq_true] at hmm
        cases hrcm : (do_mincore ctl env nodes off (wlen ctl size off)).rc with
        | some e =>
          rw [fincore_fd_go_step_err ctl env nodes size off st e hlt hmm hrcm]
          refine ⟨fun hx => by simp at hx, fun hx => ?_, fun e2 hx _ => ?_⟩
          · exfalso
            have he : e = .mapFailure := Option.some_inj.mp hx
            exact do_mincore_rc_ne_map ctl env nodes off (wlen ctl size off) e hrcm he
          · exact ⟨(off, wlen ctl size off), rfl⟩
        | none =>
          rw [fincore_fd_go_step_ok ctl env nodes size off st hlt hmm hrcm]
          have hl1 : 0 < wlen ctl size off := wlen_pos ctl hlt
          have hnotmem : (off, wlen ctl size off) ∉ st.mapped := by
            intro hmem
            have := hm _ hmem
            simp at this
          have herase : ({ stepState ctl env nodes size off st with
              mapped := (stepState ctl env nodes size off st).mapped.erase
                (off, wlen ctl size off) } : FdState).mapped = st.mapped := by
            show ((st.mapped ++ [(off, wlen ctl size off)]).erase (off, wlen ctl size off))
              = st.mapped
            rw [List.erase_append_right _ hnotmem]
            simp
          have hm2 : ∀ m ∈ ({ stepState ctl env nodes size off st with
              mapped := (stepState ctl env nodes size off st).mapped.erase
                (off, wlen ctl size off) } : FdState).mapped,
              m.1 < off + wlen ctl size off := by
            rw [herase]
            intro m hmem
            have := hm m hmem
            omega
          have hih := ih (off + wlen ctl size off) _ (by omega) hm2
          rw [herase] at hih
          exact hih
    · rw [fincore_fd_go_stop ctl env nodes size off st (by omega)]
      exact ⟨fun _ => rfl, fun hx => by simp at hx, fun e hx => by simp at hx⟩

theorem windowsFrom_step_w (ctl : FincoreControl) (size off : Nat) (h : off < size) :
    windowsFrom (window_size ctl) size off =
      (off, wlen ctl size off) ::
        windowsFrom (window_size ctl) size (off + wlen ctl size off) := by
  rw [windowsFrom_step (window_size ctl) size off ⟨h, window_size_pos ctl⟩]
  rfl

/-- C1 workhorse: when no kernel call fails, the loop succeeds and its mmap
    attempts are exactly the window list (with the chosen protection). -/
theorem fd_go_noFail (ctl : FincoreControl) (env : KernelEnv) (nodes : Bool) (size : Nat)
    (hmm : ∀ o, env.mmapFails o = false) (hmc : ∀ o, env.mincoreFails o = false)
    (hmv : ∀ o, env.movePagesFails o = false) :
    ∀ n off st, size - off ≤ n →
      (fincore_fd_go ctl env nodes size off st).rc = none ∧
      (fincore_fd_go ctl env nodes size off st).st.attempts =
        st.attempts ++ (windowsFrom (window_size ctl) size off).map
          (fun w => (w.1, w.2, fincoreProt nodes)) := by
  intro n
  induction n with
  | zero =>
    intro off st h
    rw [fincore_fd_go_stop ctl env nodes size off st (by omega),
        windowsFrom_stop _ _ _ (by omega)]
    simp
  | succ n ih =>
    intro off st h
    by_cases hlt : off < size
    · have hrcm : (do_mincore ctl env nodes off (wlen ctl size off)).rc = none :=
        do_mincore_success ctl env nodes off _ (hmc off) (hmv off)
      rw [fincore_fd_go_step_ok ctl env nodes size off st hlt (hmm off) hrcm]
      have hl1 : 0 < wlen ctl size off := wlen_pos ctl hlt
      obtain ⟨ihr, iha⟩ := ih (off + wlen ctl size off)
        ({ stepState ctl env nodes size off st with
            mapped := (stepState ctl env nodes size off st).mapped.erase
              (off, wlen ctl size off) }) (by omega)
      refine ⟨ihr, ?_⟩
      rw [iha, windowsFrom_step_w ctl size off hlt]
      have hatt : ({ stepState ctl env nodes size off st with
          mapped := (stepState ctl env nodes size off st).mapped.erase
            (off, wlen ctl size off) } : FdState).attempts
          = st.attempts ++ [(off, wlen ctl size off, fincoreProt nodes)] := rfl
      rw [hatt]
      simp
    · rw [fincore_fd_go_stop ctl env nodes size off st (by omega),
          windowsFrom_stop _ _ _ (by simp [hlt])]
      simp

/-- C6 workhorse: every recorded mmap attempt carries the protection
    `fincoreProt nodes`. -/
theorem fd_go_prot (ctl : FincoreControl) (env : KernelEnv) (nodes : Bool) (size : Nat) :
    ∀ n off st, size - off ≤ n →
      (∀ a ∈ st.attempts, a.2.2 = fincoreProt nodes) →
      ∀ a ∈ (fincore_fd_go ctl env nodes size off st).st.attempts,
        a.2.2 = fincoreProt nodes := by
  intro n
  induction n with
  | zero =>
    intro off st h hst
    rw [fincore_fd_go_stop ctl env nodes size off st (by omega)]
    exact hst
  | succ n ih =>
    intro off st h hst
    by_cases hlt : off < size
    · have hext : ∀ a ∈ st.attempts ++ [(off, wlen ctl size off, fincoreProt nodes)],
          a.2.2 = fincoreProt nodes := by
        intro a ha
        rcases List.mem_append.mp ha with ha | ha
        · exact hst a ha
        · rcases List.mem_singleton.mp ha with rfl
          rfl
      by_cases hmm : env.mmapFails off
      · rw [fincore_fd_go_step_mmap ctl env nodes size off st hlt hmm]
        exact hext
      · rw [Bool.not_eq_true] at hmm
        cases hrcm : (do_mincore ctl env nodes off (wlen ctl size off)).rc with
        | some e =>
          rw [fincore_fd_go_step_err ctl env nodes size off st e hlt hmm hrcm]
          exact hext
        | none =>
          rw [fincore_fd_go_step_ok ctl env nodes size off st hlt hmm hrcm]
          have hl1 : 0 < wlen ctl size off := wlen_pos ctl hlt
          exact ih (off + wlen ctl size off) _ (by omega) hext
    · rw [fincore_fd_go_stop ctl env nodes size off st (by omega)]
      exact hst

/-- C8 workhorse: the scan loop never emits the posix_fadvise warning tag. -/
theorem fd_go_warns (ctl : FincoreControl) (env : KernelEnv) (nodes : Bool) (size : Nat) :
    ∀ n off st, size - off ≤ n → WarnTag.fadviseW ∉ st.warns →
      WarnTag.fadviseW ∉ (fincore_fd_go ctl env nodes size off st).st.warns := by
  intro n
  induction n with
  | zero =>
    intro off st h hst
    rw [fincore_fd_go_stop ctl env nodes size off st (by omega)]
    exact hst
  | succ n ih =>
    intro off st h hst
    by_cases hlt : off < size
    · have hext : WarnTag.fadviseW ∉
          st.warns ++ (do_mincore ctl env nodes off (wlen ctl size off)).warns := by
        rw [List.mem_append]
        rintro (hx | hx)
        · exact hst hx
        · exact do_mincore_warns ctl env nodes off (wlen ctl size off) hx
      by_cases hmm : env.mmapFails off
      · rw [fincore_fd_go_step_mmap ctl env nodes size off st hlt hmm]
        show WarnTag.fadviseW ∉ st.warns ++ [WarnTag.mmapW]
        rw [List.mem_append]
        rintro (hx | hx)
        · exact hst hx
        · simp at hx
      · rw [Bool.not_eq_true] at hmm
        cases hrcm : (do_mincore ctl env nodes off (wlen ctl size off)).rc with
        | some e =>
          rw [fincore_fd_go_step_err ctl env nodes size off st e hlt hmm hrcm]
          exact hext
        | none =>
          rw [fincore_fd_go_step_ok ctl env nodes size off st hlt hmm hrcm]
          have hl1 : 0 < wlen ctl size off := wlen_pos ctl hlt
          exact ih (off + wlen ctl size off) _ (by omega) hext
    · rw [fincore_fd_go_stop ctl env nodes size off st (by omega)]
      exact hst

theorem fincore_name_openFail (ctl : FincoreControl) (nodes : Bool) (fenv : FileEnv)
    (ho : fenv.openFails = true) :
    fincore_name ctl nodes fenv = ⟨-1, .init, [.openW]⟩ := by
  simp [fincore_name, ho]

theorem fincore_name_statFail (ctl : FincoreControl) (nodes : Bool) (fenv : FileEnv)
    (ho : fenv.openFails = false) (hs : fenv.statFails = true) :
    fincore_name ctl nodes fenv = ⟨-1, .init, [.fstatW]⟩ := by
  simp [fincore_name, ho, hs]

theorem fincore_name_dir (ctl : FincoreControl) (nodes : Bool) (fenv : FileEnv)
    (ho : fenv.openFails = false) (hs : fenv.statFails = false)
    (hd : fenv.isDir = true) :
    fincore_name ctl nodes fenv = ⟨1, .init, []⟩ := by
  simp [fincore_name, ho, hs, hd]

theorem fincore_name_empty (ctl : FincoreControl) (nodes : Bool) (fenv : FileEnv)
    (ho : fenv.openFails = false) (hs : fenv.statFails = false)
    (hd : fenv.isDir = false) (hz : fenv.size = 0) :
    fincore_name ctl nodes fenv = ⟨0, .init, []⟩ := by
  simp [fincore_name, ho, hs, hd, hz]

/-- In the scanning case the posix_fadvise warning list is empty whatever its
    return value: the code tests `rc < 0` but the POSIX contract returns either
    0 or a positive error number, so the warn call is unreachable. -/
theorem fincore_name_scan (ctl : FincoreControl) (nodes : Bool) (fenv : FileEnv)
    (ho : fenv.openFails = false) (hs : fenv.statFails = false)
    (hd : fenv.isDir = false) (hz : fenv.size ≠ 0) :
    fincore_name ctl nodes fenv =
      ⟨(match (fincore_fd ctl fenv.kenv nodes fenv.size).rc with
         | none => 0
         | some e => scanErrCode e),
       (fincore_fd ctl fenv.kenv nodes fenv.size).st,
       (fincore_fd ctl fenv.kenv nodes fenv.size).st.warns⟩ := by
  unfold fincore_name
  rw [if_neg (by simp [ho]), if_neg (by simp [hs]), if_neg (by simp [hd]), if_pos hz]
  have hdrop : (if ctl.drop then
      (if (fenv.fadviseRet : Int) < 0 then [WarnTag.fadviseW] else [])
      else []) = [] := by
    split
    · rw [if_neg (Int.not_lt.mpr (Int.natCast_nonneg fenv.fadviseRet))]
    · rfl
  simp only [hdrop, List.nil_append]

theorem fincore_name_rc_cases (ctl : FincoreControl) (nodes : Bool) (fenv : FileEnv) :
    (fincore_name ctl nodes fenv).rc < 0 ∨ (fincore_name ctl nodes fenv).rc = 0 ∨
      (fincore_name ctl nodes fenv).rc = 1 := by
  by_cases ho : fenv.openFails
  · rw [fincore_name_openFail ctl nodes fenv ho]
    left
    norm_num
  · rw [Bool.not_eq_true] at ho
    by_cases hs : fenv.statFails
    · rw [fincore_name_statFail ctl nodes fenv ho hs]
      left
      norm_num
    · rw [Bool.not_eq_true] at hs
      by_cases hd : fenv.isDir
      · rw [fincore_name_dir ctl nodes fenv ho hs hd]
        right; right; rfl
      · rw [Bool.not_eq_true] at hd
        by_cases hz : fenv.size = 0
        · rw [fincore_name_empty ctl nodes fenv ho hs hd hz]
          right; left; rfl
        · rw [fincore_name_scan ctl nodes fenv ho hs hd hz]
          cases h : (fincore_fd ctl fenv.kenv nodes fenv.size).rc with
          | none => right; left; rfl
          | some e =>
            left
            cases e <;> simp [scanErrCode] <;> norm_num

/-- C7 workhorse: the fold of main() appends the records of the successful files
    and sets EXIT_FAILURE exactly when some file takes the default branch. -/
theorem mainLoop_go (ctl : FincoreControl) (collect : Bool) :
    ∀ (files : List FileEnv) (recs0 : List Record) (e0 : Nat),
      files.foldl
        (fun acc fenv =>
          let r := fincore_name ctl collect fenv
          if r.rc = 0 then (acc.1 ++ [⟨fenv.size, r.st.count, r.st.tally⟩], acc.2)
          else if r.rc = 1 then acc
          else (acc.1, EXIT_FAILURE))
        (recs0, e0) =
      (recs0 ++ files.filterMap (fileRecord ctl collect),
       if files.any (fileFailed ctl collect) then EXIT_FAILURE else e0) := by
  intro files
  induction files with
  | nil =>
    intro recs0 e0
    simp
  | cons fenv files ih =>
    intro recs0 e0
    rw [List.foldl_cons, List.any_cons, List.filterMap_cons]
    by_cases h0 : (fincore_name ctl collect fenv).rc = 0
    · have hrec : fileRecord ctl collect fenv = some
          ⟨fenv.size, (fincore_name ctl collect fenv).st.count,
           (fincore_name ctl collect fenv).st.tally⟩ := by
        unfold fileRecord
        rw [if_pos h0]
      have hfail : fileFailed ctl collect fenv = false := by
        unfold fileFailed
        simp [h0]
      rw [hrec, hfail]
      simp only [if_pos h0, ih, Bool.false_or, List.append_assoc, List.cons_append,
        List.nil_append]
    · by_cases h1 : (fincore_name ctl collect fenv).rc = 1
      · have hrec : fileRecord ctl collect fenv = none := by
          unfold fileRecord
          rw [if_neg h0]
        have hfail : fileFailed ctl collect fenv = false := by
          unfold fileFailed
          simp [h1]
        rw [hrec, hfail]
        simp only [if_neg h0, if_pos h1, ih, Bool.false_or]
      · have hrec : fileRecord ctl collect fenv = none := by
          unfold fileRecord
          rw [if_neg h0]
        have hfail : fileFailed ctl collect fenv = true := by
          unfold fileFailed
          simp [h0, h1]
        rw [hrec, hfail]
        simp only [if_neg h0, if_neg h1, ih, Bool.true_or, if_pos rfl]
        rcases files.any (fileFailed ctl collect) with _ | _
        case _ => rfl
        case _ => rfl

/-- Whenever the residency query succeeds, the count delta of a window equals
    the number of its resident pages, whatever happens afterwards. -/
theorem do_mincore_delta_eq (ctl : FincoreControl) (env : KernelEnv) (nodes : Bool)
    (off len : Nat) (hmc : env.mincoreFails off = false) :
    (do_mincore ctl env nodes off len).delta =
      (residentPages ctl env off (npages ctl len)).length := by
  cases nodes
  · rw [do_mincore_eq_ok_other ctl env off len hmc]
  · by_cases hmv : env.movePagesFails off
    · rw [do_mincore_eq_moveFail ctl env off len hmc hmv]
    · rw [Bool.not_eq_true] at hmv
      rw [do_mincore_eq_ok_nodes ctl env off len hmc hmv]

/-- C1: for every target file the File Scanner produces windows in strictly
increasing, non-overlapping, contiguous order exactly covering [0, file_size):
the window list is a chain starting at offset 0 of positive lengths, each window
length is min(window_capacity, file_size - offset), the lengths sum to
file_size, a zero-size file produces no window, the loop's mmap attempts are
exactly these windows when no call fails, and a zero-length file attempts no
mapping and yields resident_page_count = 0. -/
theorem claim_C1 (ctl : FincoreControl) (size : Nat) :
    ChainFrom 0 (windowsFrom (window_size ctl) size 0) ∧
    ((windowsFrom (window_size ctl) size 0).map Prod.snd).sum = size ∧
    (∀ w ∈ windowsFrom (window_size ctl) size 0,
      w.2 = min (window_size ctl) (size - w.1)) ∧
    (size = 0 → windowsFrom (window_size ctl) size 0 = []) ∧
    (∀ (env : KernelEnv) (nodes : Bool),
      (∀ o, env.mmapFails o = false) → (∀ o, env.mincoreFails o = false) →
      (∀ o, env.movePagesFails o = false) →
      (fincore_fd ctl env nodes size).rc = none ∧
      (fincore_fd ctl env nodes size).st.attempts =
        (windowsFrom (window_size ctl) size 0).map
          (fun w => (w.1, w.2, fincoreProt nodes))) ∧
    (∀ (nodes : Bool) (fenv : FileEnv), fenv.openFails = false →
      fenv.statFails = false → fenv.isDir = false → fenv.size = 0 →
      (fincore_name ctl nodes fenv).rc = 0 ∧
      (fincore_name ctl nodes fenv).st.count = 0 ∧
      (fincore_name ctl nodes fenv).st.attempts = []) := by
  obtain ⟨hc, hs, hm⟩ :=
    windowsFrom_spec (window_size ctl) size (window_size_pos ctl) size 0 (by omega)
  refine ⟨hc, by simpa using hs, hm, ?_, ?_, ?_⟩
  · intro hz
    exact (windowsFrom_nil_iff (window_size ctl) size (window_size_pos ctl)).mpr hz
  · intro env nodes hmm hmc hmv
    obtain ⟨hrc, hatt⟩ := fd_go_noFail ctl env nodes size hmm hmc hmv size 0 .init (by omega)
    exact ⟨hrc, by simpa [FdState.init] using hatt⟩
  · intro nodes fenv ho hst hd hz
    rw [fincore_name_empty ctl nodes fenv ho hst hd hz]
    exact ⟨rfl, rfl, rfl⟩

theorem claim_C1_witness :
    ((windowsFrom (window_size ctl4096) (3 * 4096) 0).map Prod.snd).sum = 3 * 4096 ∧
    (fincore_name ctl4096 false fenvEmpty).st.attempts = [] :=
  ⟨(claim_C1 ctl4096 (3 * 4096)).2.1,
   ((claim_C1 ctl4096 0).2.2.2.2.2 false fenvEmpty rfl rfl rfl rfl).2.2⟩

/-- C2: for every window whose residency query succeeds, the amount added to the
running resident-page count equals the number of pages of the window whose
residency-bitmap entry has the low bit set (entry j is the byte for page
off/pagesize + j, in ascending page order); in particular a 3-page file with
pages 0 and 2 resident and page 1 evicted yields resident_page_count = 2. -/
theorem claim_C2 :
    (∀ (ctl : FincoreControl) (env : KernelEnv) (nodes : Bool) (off len : Nat),
      env.mincoreFails off = false →
      (do_mincore ctl env nodes off len).delta =
        ((List.range (npages ctl len)).filter
          (fun j => decide (env.vec (off / ctl.pagesize + j) % 2 = 1))).length) ∧
    (fincore_name ctl4096 false fenv3).rc = 0 ∧
    (fincore_name ctl4096 false fenv3).st.count = 2 := by
  refine ⟨?_, ?_, ?_⟩
  · intro ctl env nodes off len hmc
    rw [do_mincore_delta_eq ctl env nodes off len hmc,
      residentPages_length_eq ctl env off (npages ctl len)]
  · simp [fincore_name, fincore_fd, fenv3, ctl4096, env3, fincore_fd_go, window_size,
      N_PAGES_IN_WINDOW, wlen, do_mincore, npages, residentPages, FdState.init]
  · simp [fincore_name, fincore_fd, fenv3, ctl4096, env3, fincore_fd_go, window_size,
      N_PAGES_IN_WINDOW, wlen, do_mincore, npages, residentPages, FdState.init]

theorem claim_C2_witness :
    (do_mincore ctl4096 env3 false 0 (3 * 4096)).delta =
      ((List.range (npages ctl4096 (3 * 4096))).filter
        (fun j => decide (env3.vec (0 / ctl4096.pagesize + j) % 2 = 1))).length :=
  claim_C2.1 ctl4096 env3 false 0 (3 * 4096) rfl

/-- C3: when node breakdown is requested and the whole scan succeeds, the sum
over all nodes of the tally equals resident_page_count minus the number of
gathered pages whose per-address migration status was negative (those are
excluded without a file-level error); when every per-address status is
nonnegative the sum equals resident_page_count. -/
theorem claim_C3 (ctl : FincoreControl) (env : KernelEnv) (size : Nat)
    (hrc : (fincore_fd ctl env true size).rc = none) :
    (∑ node in (fincore_fd ctl env true size).st.tally.toFinset,
        (fincore_fd ctl env true size).st.tally.count node)
      + ((fincore_fd ctl env true size).st.gathered.filter
          (fun a => decide (env.pageNode a < 0))).length
      = (fincore_fd ctl env true size).st.count ∧
    ((∀ a ∈ (fincore_fd ctl env true size).st.gathered, 0 ≤ env.pageNode a) →
      (∑ node in (fincore_fd ctl env true size).st.tally.toFinset,
        (fincore_fd ctl env true size).st.tally.count node)
        = (fincore_fd ctl env true size).st.count) := by
  have hsum : (∑ node in (fincore_fd ctl env true size).st.tally.toFinset,
      (fincore_fd ctl env true size).st.tally.count node)
      = (fincore_fd ctl env true size).st.tally.length := by
    simpa using Multiset.toFinset_sum_count_eq
      (↑(fincore_fd ctl env true size).st.tally : Multiset Nat)
  have h := fd_go_tally ctl env size size 0 .init (by omega) hrc (by simp [FdState.init])
  have hdef : fincore_fd_go ctl env true size 0 FdState.init =
      fincore_fd ctl env true size := rfl
  rw [hdef] at h
  constructor
  · rw [hsum]
    exact h
  · intro hpos
    have hfilter : (fincore_fd ctl env true size).st.gathered.filter
        (fun a => decide (env.pageNode a < 0)) = [] := by
      rw [List.filter_eq_nil]
      intro a ha
      simp [not_lt.mpr (hpos a ha)]
    rw [hfilter] at h
    rw [hsum]
    simpa using h

theorem claim_C3_witness :
    (fincore_fd ctl4096 env3 true (3 * 4096)).rc = none ∧
    (∑ node in (fincore_fd ctl4096 env3 true (3 * 4096)).st.tally.toFinset,
        (fincore_fd ctl4096 env3 true (3 * 4096)).st.tally.count node)
      = (fincore_fd ctl4096 env3 true (3 * 4096)).st.count := by
  have hrc : (fincore_fd ctl4096 env3 true (3 * 4096)).rc = none := by
    simp [fincore_fd, ctl4096, env3, fincore_fd_go, window_size, N_PAGES_IN_WINDOW,
      wlen, do_mincore, npages, residentPages, FdState.init]
  refine ⟨hrc, (claim_C3 ctl4096 env3 (3 * 4096) hrc).2 ?_⟩
  intro a _
  simp [env3]

/-- C4: for every regular file whose scan completes successfully, the final
resident_page_count is at most ceil(file_size / page_size), and hence
resident_page_count * page_size is at most file_size rounded up to page
granularity. -/
theorem claim_C4 (ctl : FincoreControl) (nodes : Bool) (fenv : FileEnv)
    (ho : fenv.openFails = false) (hs : fenv.statFails = false)
    (hreg : fenv.isDir = false) (hrc : (fincore_name ctl nodes fenv).rc = 0) :
    (fincore_name ctl nodes fenv).st.count ≤ ceilDiv fenv.size ctl.pagesize ∧
    (fincore_name ctl nodes fenv).st.count * ctl.pagesize ≤
      ceilDiv fenv.size ctl.pagesize * ctl.pagesize := by
  by_cases hz : fenv.size = 0
  · rw [fincore_name_empty ctl nodes fenv ho hs hreg hz]
    exact ⟨by simp [FdState.init], by simp [FdState.init]⟩
  · rw [fincore_name_scan ctl nodes fenv ho hs hreg hz] at hrc ⊢
    have hfd : (fincore_fd ctl fenv.kenv nodes fenv.size).rc = none := by
      cases h : (fincore_fd ctl fenv.kenv nodes fenv.size).rc with
      | none => rfl
      | some e =>
        rw [h] at hrc
        exfalso
        cases e <;> simp [scanErrCode] at hrc
    have hle := fd_go_count_le ctl fenv.kenv nodes fenv.size fenv.size 0 .init
      (by omega) hfd
    have hle2 : (fincore_fd ctl fenv.kenv nodes fenv.size).st.count ≤
        ceilDiv fenv.size ctl.pagesize := by
      simpa [FdState.init] using hle
    exact ⟨hle2, Nat.mul_le_mul_right _ hle2⟩

theorem claim_C4_witness :
    (fincore_name ctl4096 false fenv3).st.count ≤
      ceilDiv fenv3.size ctl4096.pagesize :=
  (claim_C4 ctl4096 false fenv3 rfl rfl rfl (by
    simp [fincore_name, fincore_fd, fenv3, ctl4096, env3, fincore_fd_go, window_size,
      N_PAGES_IN_WINDOW, wlen, do_mincore, npages, residentPages, FdState.init])).1

/-- C5 counterexample: the claim "any successfully established window mapping is
released before the scanner returns, on every exit path" is false: scanning one
page whose residency query fails returns with the window still mapped. -/
theorem claim_C5_counterexample :
    (fincore_fd ctl4096 envMincoreFail false 4096).st.mapped = [(0, 4096)] ∧
    (fincore_fd ctl4096 envMincoreFail false 4096).st.mapped ≠ [] := by
  constructor <;>
    simp [fincore_fd, ctl4096, envMincoreFail, fincore_fd_go, window_size,
      N_PAGES_IN_WINDOW, wlen, do_mincore, npages, residentPages, FdState.init]

/-- C5 amended: on the success path and on the mapping-failure path every
established mapping is released before fincore_fd returns; but when the
residency query or the migration query fails, the scanner returns with exactly
that window's mapping still established (the loop breaks before munmap). -/
theorem claim_C5_amended (ctl : FincoreControl) (env : KernelEnv) (nodes : Bool)
    (size : Nat) :
    ((fincore_fd ctl env nodes size).rc = none →
      (fincore_fd ctl env nodes size).st.mapped = []) ∧
    ((fincore_fd ctl env nodes size).rc = some .mapFailure →
      (fincore_fd ctl env nodes size).st.mapped = []) ∧
    (∀ e, (fincore_fd ctl env nodes size).rc = some e → e ≠ .mapFailure →
      ∃ w, (fincore_fd ctl env nodes size).st.mapped = [w]) := by
  obtain ⟨h1, h2, h3⟩ := fd_go_mapped ctl env nodes size size 0 .init (by omega)
    (by simp [FdState.init])
  refine ⟨h1, h2, fun e hrc he => ?_⟩
  obtain ⟨w, hw⟩ := h3 e hrc he
  exact ⟨w, by simpa [FdState.init] using hw⟩

theorem claim_C5_amended_witness :
    (fincore_fd ctl4096 envMincoreFail false 4096).rc =
      some ScanError.residencyQueryFailure ∧
    ∃ w, (fincore_fd ctl4096 envMincoreFail false 4096).st.mapped = [w] := by
  have hrc : (fincore_fd ctl4096 envMincoreFail false 4096).rc =
      some ScanError.residencyQueryFailure := by
    simp [fincore_fd, ctl4096, envMincoreFail, fincore_fd_go, window_size,
      N_PAGES_IN_WINDOW, wlen, do_mincore, npages, residentPages, FdState.init]
  exact ⟨hrc, (claim_C5_amended ctl4096 envMincoreFail false 4096).2.2
    ScanError.residencyQueryFailure hrc (by simp)⟩

/-- C6 counterexample: the claim "the protection requested is read-only
(PROT_READ) when node discovery is not requested" is false: without node
discovery the code requests protection 0 (no access), as the recorded mmap
attempt of a one-page scan shows. -/
theorem claim_C6_counterexample :
    (fincore_fd ctl4096 envAllResident false 4096).st.attempts = [(0, 4096, 0)] ∧
    fincoreProt false ≠ PROT_READ := by
  constructor
  · simp [fincore_fd, ctl4096, envAllResident, fincore_fd_go, window_size,
      N_PAGES_IN_WINDOW, wlen, do_mincore, npages, residentPages, FdState.init,
      fincoreProt]
  · decide

/-- C6 amended: every window's mmap uses protection PROT_READ when node
discovery is requested (so read access is permitted) and protection 0 (no
access) when it is not; with node discovery, on a successful window each
resident page is touched by the one-byte read, and exactly those addresses are
handed to the migration query. -/
theorem claim_C6_amended (ctl : FincoreControl) (env : KernelEnv) (nodes : Bool)
    (size : Nat) :
    fincoreProt true = PROT_READ ∧ fincoreProt false = 0 ∧
    (∀ a ∈ (fincore_fd ctl env nodes size).st.attempts, a.2.2 = fincoreProt nodes) ∧
    (∀ off len, env.mincoreFails off = false → env.movePagesFails off = false →
      (do_mincore ctl env true off len).touched =
        residentPages ctl env off (npages ctl len) ∧
      (do_mincore ctl env true off len).tallyAdd =
        (residentPages ctl env off (npages ctl len)).filterMap (fun a =>
          if 0 ≤ env.pageNode a then some (env.pageNode a).toNat else none)) := by
  refine ⟨rfl, rfl, ?_, ?_⟩
  · exact fd_go_prot ctl env nodes size size 0 .init (by omega) (by simp [FdState.init])
  · intro off len hmc hmv
    rw [do_mincore_eq_ok_nodes ctl env off len hmc hmv]
    exact ⟨rfl, rfl⟩

theorem claim_C6_amended_witness :
    (do_mincore ctl4096 env3 true 0 (3 * 4096)).touched =
      residentPages ctl4096 env3 0 (npages ctl4096 (3 * 4096)) :=
  ((claim_C6_amended ctl4096 env3 true (3 * 4096)).2.2.2 0 (3 * 4096) rfl rfl).1

/-- C7: a directory yields no output record, no warning and no failure; the exit
status is EXIT_FAILURE exactly when some file's fincore_name returned an error
(negative); and the records emitted are exactly those of the files whose scan
returned 0, independent of the other files. -/
theorem claim_C7 (ctl : FincoreControl) (collect : Bool) (files : List FileEnv) :
    (mainLoop ctl collect files).1 = files.filterMap (fileRecord ctl collect) ∧
    ((mainLoop ctl collect files).2 = EXIT_FAILURE ↔
      ∃ fenv ∈ files, (fincore_name ctl collect fenv).rc < 0) ∧
    (∀ fenv : FileEnv, fenv.openFails = false → fenv.statFails = false →
      fenv.isDir = true →
      (fincore_name ctl collect fenv).rc = 1 ∧
      (fincore_name ctl collect fenv).warns = [] ∧
      fileRecord ctl collect fenv = none ∧
      fileFailed ctl collect fenv = false) := by
  have hfail : ∀ fenv, fileFailed ctl collect fenv = true ↔
      (fincore_name ctl collect fenv).rc < 0 := by
    intro fenv
    unfold fileFailed
    rcases fincore_name_rc_cases ctl collect fenv with h | h | h
    · simp [h]
      omega
    · simp [h]
    · simp [h]
  have hml := mainLoop_go ctl collect files [] EXIT_SUCCESS
  refine ⟨?_, ?_, ?_⟩
  · unfold mainLoop
    rw [hml]
    simp
  · unfold mainLoop
    rw [hml]
    show (if files.any (fileFailed ctl collect) = true then EXIT_FAILURE
      else EXIT_SUCCESS) = EXIT_FAILURE ↔ _
    constructor
    · intro hx
      by_cases ha : files.any (fileFailed ctl collect)
      · obtain ⟨fenv, hmem, hf⟩ := List.any_eq_true.mp ha
        exact ⟨fenv, hmem, (hfail fenv).mp hf⟩
      · rw [if_neg ha] at hx
        exact absurd hx (by simp [EXIT_SUCCESS, EXIT_FAILURE])
    · rintro ⟨fenv, hmem, hlt⟩
      have ha : files.any (fileFailed ctl collect) := List.any_eq_true.mpr
        ⟨fenv, hmem, (hfail fenv).mpr hlt⟩
      rw [if_pos ha]
  · intro fenv ho hs hd
    rw [fincore_name_dir ctl collect fenv ho hs hd]
    refine ⟨rfl, rfl, ?_, ?_⟩
    · unfold fileRecord
      rw [fincore_name_dir ctl collect fenv ho hs hd]
      rfl
    · unfold fileFailed
      rw [fincore_name_dir ctl collect fenv ho hs hd]
      simp

theorem claim_C7_witness :
    (mainLoop ctl4096 false [fenvDir]).1 = [fenvDir].filterMap (fileRecord ctl4096 false) ∧
    (fincore_name ctl4096 false fenvDir).rc = 1 :=
  ⟨(claim_C7 ctl4096 false [fenvDir]).1,
   ((claim_C7 ctl4096 false [fenvDir]).2.2 fenvDir rfl rfl rfl).1⟩

/-- C8: the claim says a drop-advice failure produces a warning identifying the
file while the scan still proceeds.  The scan does proceed and the failure is
never treated as an error, but the warning is unreachable: the code tests
`rc < 0` although posix_fadvise reports failure with a positive error number
(POSIX contract), so at the failing input (drop active, advice returning error
22 on a one-page resident file) no warning at all is produced and a normal
record is still emitted. -/
theorem claim_C8 :
    (∀ (ctl : FincoreControl) (nodes : Bool) (fenv : FileEnv),
      WarnTag.fadviseW ∉ (fincore_name ctl nodes fenv).warns) ∧
    (fincore_name ctlDrop false fenvDropFail).warns = [] ∧
    (fincore_name ctlDrop false fenvDropFail).rc = 0 ∧
    (fincore_name ctlDrop false fenvDropFail).st.count = 1 ∧
    mainLoop ctlDrop false [fenvDropFail] = ([⟨4096, 1, []⟩], EXIT_SUCCESS) := by
  have hname : fincore_name ctlDrop false fenvDropFail =
      ⟨0, ⟨1, [], [], [], [(0, 4096, 0)], []⟩, []⟩ := by
    simp [fincore_name, fincore_fd, fenvDropFail, ctlDrop, envAllResident,
      fincore_fd_go, window_size, N_PAGES_IN_WINDOW, wlen, do_mincore, npages,
      residentPages, FdState.init, fincoreProt, PROT_READ]
  refine ⟨?_, ?_, ?_, ?_, ?_⟩
  · intro ctl nodes fenv
    by_cases ho : fenv.openFails
    · rw [fincore_name_openFail ctl nodes fenv ho]
      simp
    · rw [Bool.not_eq_true] at ho
      by_cases hs : fenv.statFails
      · rw [fincore_name_statFail ctl nodes fenv ho hs]
        simp
      · rw [Bool.not_eq_true] at hs
        by_cases hd : fenv.isDir
        · rw [fincore_name_dir ctl nodes fenv ho hs hd]
          simp
        · rw [Bool.not_eq_true] at hd
          by_cases hz : fenv.size = 0
          · rw [fincore_name_empty ctl nodes fenv ho hs hd hz]
            simp
          · rw [fincore_name_scan ctl nodes fenv ho hs hd hz]
            exact fd_go_warns ctl fenv.kenv nodes fenv.size fenv.size 0 .init
              (by omega) (by simp [FdState.init])
  · rw [hname]
  · rw [hname]
  · rw [hname]
  · unfold mainLoop
    rw [List.foldl_cons, List.foldl_nil]
    simp only [hname]
    simp [fenvDropFail, EXIT_SUCCESS]

end Fincore


namespace EarlyFilter

theorem buildFilters_go (ops : List AddOp) :
    ∀ efs : early_filters,
      (ops.foldl
        (fun efs op => match op with
          | .addPid p => early_filters_add_pid efs p
          | .addPath fp => early_filters_add_file_path efs fp) efs) =
      ⟨efs.filters ++ ops.map AddOp.toFilter,
       efs.n_pid_filters + (pidsAdded ops).length,
       efs.n_file_path_filters + (pathsAdded ops).length,
       efs.pids⟩ := by
  induction ops with
  | nil =>
    intro efs
    simp [pidsAdded, pathsAdded]
  | cons op ops ih =>
    intro efs
    rw [List.foldl_cons]
    cases op with
    | addPid p =>
      rw [ih (early_filters_add_pid efs p)]
      unfold early_filters_add_pid
      simp [pidsAdded, pathsAdded, AddOp.toFilter, List.filterMap_cons]
      omega
    | addPath fp =>
      rw [ih (early_filters_add_file_path efs fp)]
      unfold early_filters_add_file_path
      simp [pidsAdded, pathsAdded, AddOp.toFilter, List.filterMap_cons]
      omega


theorem buildFilters_eq (ops : List AddOp) :
    buildFilters ops =
      ⟨ops.map AddOp.toFilter, (pidsAdded ops).length, (pathsAdded ops).length, none⟩ := by
  unfold buildFilters
  rw [buildFilters_go ops new_early_filters]
  simp [new_early_filters]

theorem bsearchGo_stop (a : List Int) (key : Int) (lo hi : Nat) (h : ¬ lo < hi) :
    bsearchGo a key lo hi = false := by
  rw [bsearchGo]
  simp [h]

theorem bsearchGo_step (a : List Int) (key : Int) (lo hi : Nat) (h : lo < hi) :
    bsearchGo a key lo hi =
      (if key < a.getD ((lo + hi) / 2) 0 then bsearchGo a key lo ((lo + hi) / 2)
       else if a.getD ((lo + hi) / 2) 0 < key then bsearchGo a key ((lo + hi) / 2 + 1) hi
       else true) := by
  conv_lhs => rw [bsearchGo]
  simp only [dif_pos h]

theorem sorted_getD_le (a : List Int) (hsort : a.Sorted (· ≤ ·)) (i j : Nat)
    (hij : i ≤ j) (hj : j < a.length) : a.getD i 0 ≤ a.getD j 0 := by
  rcases Nat.eq_or_lt_of_le hij with rfl | hlt
  · exact le_refl _
  · have hi : i < a.length := by omega
    rw [List.getD_eq_getElem a 0 hi, List.getD_eq_getElem a 0 hj]
    have := List.pairwise_iff_get.mp hsort ⟨i, hi⟩ ⟨j, hj⟩ hlt
    simpa using this

theorem bsearchGo_correct (a : List Int) (key : Int) (hsort : a.Sorted (· ≤ ·)) :
    ∀ n lo hi, hi - lo ≤ n → hi ≤ a.length →
      (bsearchGo a key lo hi = true ↔
        ∃ i, lo ≤ i ∧ i < hi ∧ a.getD i 0 = key) := by
  intro n
  induction n with
  | zero =>
    intro lo hi h hle
    rw [bsearchGo_stop a key lo hi (by omega)]
    constructor
    · intro hx
      exact absurd hx (by simp)
    · rintro ⟨i, h1, h2, _⟩
      omega
  | succ n ih =>
    intro lo hi h hle
    by_cases hlt : lo < hi
    · rw [bsearchGo_step a key lo hi hlt]
      have hmid1 : lo ≤ (lo + hi) / 2 := by omega
      have hmid2 : (lo + hi) / 2 < hi := by omega
      by_cases hk1 : key < a.getD ((lo + hi) / 2) 0
      · rw [if_pos hk1, ih lo ((lo + hi) / 2) (by omega) (by omega)]
        constructor
        · rintro ⟨i, h1, h2, h3⟩
          exact ⟨i, h1, by omega, h3⟩
        · rintro ⟨i, h1, h2, h3⟩
          refine ⟨i, h1, ?_, h3⟩
          by_contra hcon
          push_neg at hcon
          have := sorted_getD_le a hsort ((lo + hi) / 2) i hcon (by omega)
          rw [h3] at this
          omega
      · rw [if_neg hk1]
        by_cases hk2 : a.getD ((lo + hi) / 2) 0 < key
        · rw [if_pos hk2, ih ((lo + hi) / 2 + 1) hi (by omega) (by omega)]
          constructor
          · rintro ⟨i, h1, h2, h3⟩
            exact ⟨i, by omega, h2, h3⟩
          · rintro ⟨i, h1, h2, h3⟩
            refine ⟨i, ?_, h2, h3⟩
            by_contra hcon
            push_neg at hcon
            have hile : i ≤ (lo + hi) / 2 := by omega
            have := sorted_getD_le a hsort i ((lo + hi) / 2) hile (by omega)
            rw [h3] at this
            omega
        · rw [if_neg hk2]
          have hkey : a.getD ((lo + hi) / 2) 0 = key := by omega
          simp only [true_iff]
          exact ⟨(lo + hi) / 2, hmid1, hmid2, hkey⟩
    · rw [bsearchGo_stop a key lo hi hlt]
      constructor
      · intro hx
        exact absurd hx (by simp)
      · rintro ⟨i, h1, h2, _⟩
        omega

theorem bsearch_correct (a : List Int) (key : Int) (hsort : a.Sorted (· ≤ ·)) :
    bsearch key a = true ↔ key ∈ a := by
  unfold bsearch
  rw [bsearchGo_correct a key hsort a.length 0 a.length (by omega) (le_refl _)]
  constructor
  · rintro ⟨i, _, hi, hd⟩
    rw [List.getD_eq_getElem a 0 hi] at hd
    rw [← hd]
    exact List.getElem_mem _
  · intro hmem
    obtain ⟨⟨i, hi⟩, he⟩ := List.mem_iff_get.mp hmem
    refine ⟨i, by omega, hi, ?_⟩
    rw [List.getD_eq_getElem a 0 hi]
    simpa using he


theorem sort_pids_sorted (l : List Int) : (sort_pids l).Sorted (· ≤ ·) :=
  List.sorted_insertionSort _ l

theorem sort_pids_mem (l : List Int) (p : Int) : p ∈ sort_pids l ↔ p ∈ l :=
  (List.perm_insertionSort _ l).mem_iff

theorem filterMap_map_toFilter (ops : List AddOp) :
    (ops.map AddOp.toFilter).filterMap filterPid = pidsAdded ops := by
  induction ops with
  | nil => simp [pidsAdded]
  | cons op ops ih =>
    cases op with
    | addPid p =>
      simp only [pidsAdded, List.map_cons, List.filterMap_cons, AddOp.toFilter,
        filterPid] at ih ⊢
      rw [ih]
    | addPath fp =>
      simp only [pidsAdded, List.map_cons, List.filterMap_cons, AddOp.toFilter,
        filterPid] at ih ⊢
      rw [ih]

/-- C9: after early_filters_optimize, early_filters_apply_pid accepts p exactly
when no pid filter was ever added or p is one of the added pids; the optimize
step copies exactly the added pids into a sorted array that bsearch searches. -/
theorem claim_C9 (ops : List AddOp) (p : Int) :
    early_filters_apply_pid (early_filters_optimize (buildFilters ops)) p = true ↔
      (pidsAdded ops = [] ∨ p ∈ pidsAdded ops) := by
  rw [buildFilters_eq ops]
  by_cases hz : pidsAdded ops = []
  · have hopt : early_filters_optimize
        ⟨ops.map AddOp.toFilter, (pidsAdded ops).length, (pathsAdded ops).length, none⟩ =
        ⟨ops.map AddOp.toFilter, (pidsAdded ops).length, (pathsAdded ops).length, none⟩ := by
      unfold early_filters_optimize
      rw [if_neg (by simp [hz])]
    rw [hopt]
    unfold early_filters_apply_pid early_filters_has_pid_filter
    simp [hz]
  · have hlen : 0 < (pidsAdded ops).length := by
      cases h : pidsAdded ops with
      | nil => exact absurd h hz
      | cons a l => simp [h]
    have hopt : early_filters_optimize
        ⟨ops.map AddOp.toFilter, (pidsAdded ops).length, (pathsAdded ops).length, none⟩ =
        ⟨ops.map AddOp.toFilter, (pidsAdded ops).length, (pathsAdded ops).length,
         some (sort_pids ((ops.map AddOp.toFilter).filterMap filterPid))⟩ := by
      unfold early_filters_optimize
      rw [if_pos hlen]
    rw [hopt]
    unfold early_filters_apply_pid early_filters_has_pid_filter
    rw [if_neg (by simp [hlen])]
    have hgetD : (some (sort_pids ((ops.map AddOp.toFilter).filterMap filterPid))).getD
        ([] : List Int) = sort_pids ((ops.map AddOp.toFilter).filterMap filterPid) := rfl
    rw [hgetD, bsearch_correct _ p (sort_pids_sorted _), sort_pids_mem,
      filterMap_map_toFilter]
    constructor
    · intro h
      exact Or.inr h
    · rintro (h | h)
      · exact absurd h hz
      · exact h

theorem claim_C9_witness :
    early_filters_apply_pid
      (early_filters_optimize (buildFilters [AddOp.addPid 7, AddOp.addPid 3])) 3 = true ↔
      (pidsAdded [AddOp.addPid 7, AddOp.addPid 3] = [] ∨
        3 ∈ pidsAdded [AddOp.addPid 7, AddOp.addPid 3]) :=
  claim_C9 [AddOp.addPid 7, AddOp.addPid 3] 3


theorem char_toNat_inj {a b : Char} (h : a.toNat = b.toNat) : a = b := by
  have h2 : a.val.toNat = b.val.toNat := h
  exact Char.ext (UInt32.ext h2)

theorem strncmp_eq_zero_iff (f : List Char) (hf : NoNul f) :
    ∀ path : List Char, strncmp f path f.length = 0 ↔ path.take f.length = f := by
  induction f with
  | nil =>
    intro path
    simp [strncmp]
  | cons a as ih =>
    intro path
    have hfa : a.toNat ≠ 0 := hf a (by simp)
    have hfs : NoNul as := fun c hc => hf c (by simp [hc])
    cases path with
    | nil =>
      constructor
      · intro h
        have h2 : (a.toNat : Int) = 0 := by
          simpa [strncmp] using h
        exact absurd (by exact_mod_cast h2) hfa
      · intro h
        simp at h
    | cons b bs =>
      by_cases hab : a = b
      · subst hab
        have hstep : strncmp (a :: as) (a :: bs) (a :: as).length =
            strncmp as bs as.length := by
          simp [strncmp]
        rw [hstep, ih hfs bs]
        simp [List.take_succ_cons]
      · have hne : (a.toNat : Int) - (b.toNat : Int) ≠ 0 := by
          intro hcon
          have : a.toNat = b.toNat := by omega
          exact hab (char_toNat_inj this)
        have hstep : strncmp (a :: as) (b :: bs) (a :: as).length =
            (a.toNat : Int) - (b.toNat : Int) := by
          simp [strncmp, hab]
        rw [hstep]
        constructor
        · intro h
          exact absurd h hne
        · intro h
          rw [List.length_cons, List.take_succ_cons] at h
          simp at h
          exact absurd h.1.symm hab

theorem strcmp_eq_zero_iff (a : List Char) (ha : NoNul a) :
    ∀ b : List Char, NoNul b → (strcmp a b = 0 ↔ a = b) := by
  induction a with
  | nil =>
    intro b hb
    cases b with
    | nil => simp [strcmp]
    | cons c cs =>
      have hc : c.toNat ≠ 0 := hb c (by simp)
      constructor
      · intro h
        have h2 : (c.toNat : Int) = 0 := by
          have := h
          simp [strcmp] at this
          omega
        exact absurd (by exact_mod_cast h2) hc
      · intro h
        simp at h
  | cons x xs ih =>
    intro b hb
    have hx : x.toNat ≠ 0 := ha x (by simp)
    have hxs : NoNul xs := fun c hc => ha c (by simp [hc])
    cases b with
    | nil =>
      constructor
      · intro h
        have h2 : (x.toNat : Int) = 0 := by simpa [strcmp] using h
        exact absurd (by exact_mod_cast h2) hx
      · intro h
        simp at h
    | cons y ys =>
      have hys : NoNul ys := fun c hc => hb c (by simp [hc])
      by_cases hxy : x = y
      · subst hxy
        have hstep : strcmp (x :: xs) (x :: ys) = strcmp xs ys := by
          simp [strcmp]
        rw [hstep, ih hxs ys hys]
        simp
      · have hne : (x.toNat : Int) - (y.toNat : Int) ≠ 0 := by
          intro hcon
          have : x.toNat = y.toNat := by omega
          exact hxy (char_toNat_inj this)
        have hstep : strcmp (x :: xs) (y :: ys) =
            (x.toNat : Int) - (y.toNat : Int) := by
          simp [strcmp, hxy]
        rw [hstep]
        constructor
        · intro h
          exact absurd h hne
        · intro h
          simp at h
          exact absurd h.1 hxy

theorem noNul_deletedSuffix : NoNul deletedSuffix := by
  unfold NoNul deletedSuffix
  decide

/-- file_path_equal accepts exactly the path equal to the filter string or equal
    to it followed by " (deleted)". -/
theorem file_path_equal_iff (fp path : List Char) (hf : NoNul fp) (hp : NoNul path) :
    file_path_equal (.file_path fp) path = true ↔
      (path = fp ∨ path = fp ++ deletedSuffix) := by
  have hfpe : file_path_equal (.file_path fp) path =
      (if strncmp fp path fp.length = 0 then
        (if strIndex path fp.length = Char.ofNat 0 then true
         else if strcmp (path.drop fp.length) deletedSuffix = 0 then true else false)
       else false) := rfl
  rw [hfpe]
  by_cases h1 : strncmp fp path fp.length = 0
  · rw [if_pos h1]
    have htake : path.take fp.length = fp := (strncmp_eq_zero_iff fp hf path).mp h1
    have hlen : fp.length ≤ path.length := by
      have h2 := congrArg List.length htake
      simp at h2
      omega
    by_cases h2 : strIndex path fp.length = Char.ofNat 0
    · rw [if_pos h2]
      have hge : path.length ≤ fp.length := by
        by_contra hcon
        push_neg at hcon
        have hmem : strIndex path fp.length ∈ path := by
          unfold strIndex
          rw [List.getD_eq_getElem path _ hcon]
          exact List.getElem_mem hcon
        have := hp _ hmem
        rw [h2] at this
        exact this (by decide)
      have hpf : path = fp := by
        rw [← htake, List.take_of_length_le hge]
      simp [hpf]
    · rw [if_neg h2]
      have hlt : fp.length < path.length := by
        rcases Nat.lt_or_ge fp.length path.length with h | h
        · exact h
        · exfalso
          apply h2
          unfold strIndex
          rw [List.getD_eq_default path _ (by omega)]
      have hdropNoNul : NoNul (path.drop fp.length) :=
        fun c hc => hp c (List.mem_of_mem_drop hc)
      constructor
      · intro h3
        have hcmp : strcmp (path.drop fp.length) deletedSuffix = 0 := by
          by_contra hcon
          rw [if_neg hcon] at h3
          exact absurd h3 (by simp)
        have hdrop : path.drop fp.length = deletedSuffix :=
          (strcmp_eq_zero_iff _ hdropNoNul deletedSuffix noNul_deletedSuffix).mp hcmp
        right
        rw [← List.take_append_drop fp.length path, htake, hdrop]
      · rintro (rfl | hsuf)
        · exfalso
          apply h2
          unfold strIndex
          rw [List.getD_eq_default path _ (by omega)]
        · have hdrop : path.drop fp.length = deletedSuffix := by
            rw [hsuf, List.drop_left]
          rw [hdrop,
            if_pos ((strcmp_eq_zero_iff deletedSuffix noNul_deletedSuffix
              deletedSuffix noNul_deletedSuffix).mpr rfl)]
  · rw [if_neg h1]
    constructor
    · intro h
      exact absurd h (by simp)
    · rintro (rfl | hsuf)
      · exact absurd ((strncmp_eq_zero_iff _ hf _).mpr
          (by rw [List.take_length])) h1
      · exact absurd ((strncmp_eq_zero_iff fp hf path).mpr
          (by rw [hsuf, List.take_left])) h1


theorem mem_map_toFilter_path (ops : List AddOp) (fp : List Char) :
    early_filter.file_path fp ∈ ops.map AddOp.toFilter ↔ fp ∈ pathsAdded ops := by
  induction ops with
  | nil => simp [pathsAdded]
  | cons op ops ih =>
    cases op with
    | addPid p =>
      simp only [pathsAdded, List.map_cons, List.filterMap_cons, AddOp.toFilter,
        List.mem_cons] at ih ⊢
      simp [ih]
    | addPath fp2 =>
      simp only [pathsAdded, List.map_cons, List.filterMap_cons, AddOp.toFilter,
        List.mem_cons] at ih ⊢
      simp [ih]

/-- C10: early_filters_apply_file_path accepts a path exactly when no file-path
filter was added, or some added filter string equals the path or equals it with
the exact suffix " (deleted)" removed; a mere prefix is rejected. -/
theorem claim_C10 (ops : List AddOp) (path : List Char) (hp : NoNul path)
    (hf : ∀ fp ∈ pathsAdded ops, NoNul fp) :
    early_filters_apply_file_path (buildFilters ops) path = true ↔
      (pathsAdded ops = [] ∨
        ∃ fp ∈ pathsAdded ops, path = fp ∨ path = fp ++ deletedSuffix) := by
  rw [buildFilters_eq ops]
  unfold early_filters_apply_file_path early_filters_has_file_path
  by_cases hz : pathsAdded ops = []
  · simp [hz]
  · have hlen : 0 < (pathsAdded ops).length := by
      cases h : pathsAdded ops with
      | nil => exact absurd h hz
      | cons a l => simp [h]
    rw [if_neg (by simp [hlen])]
    unfold early_filters_apply
    show (ops.map AddOp.toFilter).any (fun ef => file_path_equal ef path) = true ↔ _
    rw [List.any_eq_true]
    constructor
    · rintro ⟨ef, hmem, hpred⟩
      cases ef with
      | pid q => simp [file_path_equal] at hpred
      | file_path fp =>
        have hfp : fp ∈ pathsAdded ops := (mem_map_toFilter_path ops fp).mp hmem
        exact Or.inr ⟨fp, hfp, (file_path_equal_iff fp path (hf fp hfp) hp).mp hpred⟩
    · rintro (h | ⟨fp, hmem, hor⟩)
      · exact absurd h hz
      · exact ⟨.file_path fp, (mem_map_toFilter_path ops fp).mpr hmem,
          (file_path_equal_iff fp path (hf fp hmem) hp).mpr hor⟩

theorem claim_C10_witness :
    NoNul ['a'] ∧
    (early_filters_apply_file_path (buildFilters [AddOp.addPath ['a']]) ['a'] = true ↔
      (pathsAdded [AddOp.addPath ['a']] = [] ∨
        ∃ fp ∈ pathsAdded [AddOp.addPath ['a']],
          ['a'] = fp ∨ ['a'] = fp ++ deletedSuffix)) := by
  refine ⟨by unfold NoNul; decide, claim_C10 [AddOp.addPath ['a']] ['a']
    (by unfold NoNul; decide) ?_⟩
  intro fp hfp
  simp [pathsAdded] at hfp
  subst hfp
  unfold NoNul
  decide

end EarlyFilter



